import Mathlib

/-!
Shallow embedding of the jumper project switcher (src/main.rs and src/tmux.rs).

Paths, display labels and file contents are strings; file lines are lists of
strings.  External collaborators (the directory walker, the tmux session
list, the fzf picker, file timestamps) are passed in as explicit data or
functions.  Timestamps are naturals (SystemTime comparison is a total order).
-/

set_option maxHeartbeats 1000000

/-- A project is identified by its raw path string (struct Project, main.rs:54). -/
structure Project where
  path : String
deriving DecidableEq, Repr

theorem Project.eq_iff_path (p q : Project) : p = q ↔ p.path = q.path := by
  cases p; cases q; simp

/-!  Rust str::replace semantics: scan left to right, replacing each
non-overlapping occurrence of the (nonempty) pattern.  Implemented with a
fuel argument (fuel = length of the scanned list suffices), so that it is
structurally recursive and evaluates inside the kernel. -/

def raGo (pat rep : List Char) : Nat → List Char → List Char
  | _, [] => []
  | 0, s => s
  | f + 1, c :: rest =>
    if pat.isPrefixOf (c :: rest) then
      rep ++ raGo pat rep f (List.drop pat.length (c :: rest))
    else
      c :: raGo pat rep f rest

/-- Replace every non-overlapping occurrence of pat in s by rep, scanning
left to right (Rust str::replace, for a nonempty pattern). -/
def replaceAllL (pat rep s : List Char) : List Char :=
  raGo pat rep s.length s

theorem raGo_fuel (pat rep : List Char) (hpat : pat ≠ []) :
    ∀ f1 : Nat, ∀ f2 : Nat, ∀ s : List Char,
      s.length ≤ f1 → s.length ≤ f2 → raGo pat rep f1 s = raGo pat rep f2 s := by
  intro f1
  induction f1 with
  | zero =>
    intro f2 s h1 _
    have hs : s = [] := List.eq_nil_of_length_eq_zero (Nat.le_zero.mp h1)
    subst hs
    cases f2 <;> rfl
  | succ f ih =>
    intro f2 s h1 h2
    cases s with
    | nil => cases f2 <;> rfl
    | cons c rest =>
      cases f2 with
      | zero => exact absurd h2 (by simp)
      | succ f2p =>
        have hlen : rest.length ≤ f := by simpa using h1
        have hlen2 : rest.length ≤ f2p := by simpa using h2
        by_cases hpre : pat.isPrefixOf (c :: rest)
        · have hp1 : 1 ≤ pat.length := by
            cases pat with
            | nil => exact absurd rfl hpat
            | cons a l => simp
          have hdl : (List.drop pat.length (c :: rest)).length ≤ f := by
            have : (List.drop pat.length (c :: rest)).length = (c :: rest).length - pat.length := by
              simp
            rw [this]
            have : (c :: rest).length - pat.length ≤ rest.length := by
              simp only [List.length_cons]
              omega
            exact Nat.le_trans this hlen
          have hdl2 : (List.drop pat.length (c :: rest)).length ≤ f2p := by
            have : (List.drop pat.length (c :: rest)).length = (c :: rest).length - pat.length := by
              simp
            rw [this]
            have : (c :: rest).length - pat.length ≤ rest.length := by
              simp only [List.length_cons]
              omega
            exact Nat.le_trans this hlen2
          simp only [raGo, hpre, if_true]
          rw [ih _ _ hdl hdl2]
        · simp only [raGo, hpre, Bool.false_eq_true, if_false]
          rw [ih _ _ hlen hlen2]

theorem replaceAllL_nil (pat rep : List Char) : replaceAllL pat rep [] = [] := rfl

theorem replaceAllL_pos (pat rep : List Char) (c : Char) (rest : List Char)
    (hpat : pat ≠ []) (h : pat.isPrefixOf (c :: rest)) :
    replaceAllL pat rep (c :: rest) =
      rep ++ replaceAllL pat rep (List.drop pat.length (c :: rest)) := by
  unfold replaceAllL
  have hp1 : 1 ≤ pat.length := by
    cases pat with
    | nil => exact absurd rfl hpat
    | cons a l => simp
  show raGo pat rep (rest.length + 1) (c :: rest) = _
  simp only [raGo, h, if_true]
  congr 1
  apply raGo_fuel pat rep hpat
  · have : (List.drop pat.length (c :: rest)).length = (c :: rest).length - pat.length := by
      simp
    rw [this]
    simp only [List.length_cons]
    omega
  · exact Nat.le_refl _

theorem replaceAllL_neg (pat rep : List Char) (c : Char) (rest : List Char)
    (h : ¬ pat.isPrefixOf (c :: rest)) :
    replaceAllL pat rep (c :: rest) = c :: replaceAllL pat rep rest := by
  unfold replaceAllL
  show raGo pat rep (rest.length + 1) (c :: rest) = _
  simp only [raGo, h, Bool.false_eq_true, if_false]

/-- The home directory of the current user, as interpolated in
Project::to_fzf_display (main.rs:69). -/
def homePat (user : String) : String := "/home/" ++ user

/-- The configured alternate root prefixed by a short alias (main.rs:70). -/
def codeRoot : String := "/run/media/fib/ExternalSSD/code"

/-- Project::to_fzf_display (main.rs:66-72): replace occurrences of the home
directory by a tilde, occurrences of the alternate root by the alias, then
remove every literal dot.  Rust String::replace rewrites every occurrence. -/
def Project.to_fzf_display (user : String) (p : Project) : String :=
  String.mk (replaceAllL ['.'] []
    (replaceAllL codeRoot.data "code".data
      (replaceAllL (homePat user).data ['~'] p.path.data)))

/-!  Project aggregation (get_projects, main.rs:191-228).

A project-list line is matched against the unanchored regex
(.*) --depth (\d+): because of the leftmost-first semantics with a greedy
dot-star, a line matches iff it contains the literal text of depthPat
immediately followed by a \d digit, the captured dir is the longest prefix
with that property, and the captured depth text is the maximal \d run right
after that occurrence of depthPat.  In the regex crate \d is the Unicode
decimal-digit category Nd, not only the ASCII digits; the captured run then
goes through parse::<u32>().unwrap() (main.rs:201), which panics unless the
run is pure ASCII digits whose value fits in a u32.

Two models are given.  expandLineChecked below is the exact one: it matches
with the full \d class and returns none for the parse panic.  matchAtB,
depthCapture and expandLine are the total ASCII projection used by the
aggregation pipeline (get_projects and the claims over it): the theorem
expandLineChecked_sound, proved with claim C9, shows the projection agrees
with the exact model on every line on which the program completes, so the
pipeline model is exact on every completing run and approximates only runs
that panic inside the depth parse. -/

/-- The literal separator of a depth entry. -/
def depthPat : String := " --depth "

/-- Does the depth separator followed by an ASCII digit occur at offset i of
s.  This is the ASCII projection of the regex condition (the exact class is
isNd below); the two coincide on every line on which the program completes. -/
def matchAtB (s : List Char) (i : Nat) : Bool :=
  depthPat.data.isPrefixOf (s.drop i) &&
    (match s.drop (i + depthPat.data.length) with
     | c :: _ => c.isDigit
     | [] => false)

/-- Scan offsets k-1, k-2, ..., 0 and return the largest offset at which
matchAtB holds. -/
def bestSplitGo (s : List Char) : Nat → Option Nat
  | 0 => none
  | k + 1 => if matchAtB s k then some k else bestSplitGo s k

/-- The largest offset at which the depth separator followed by an ASCII
digit occurs (ASCII projection of the split the regex engine picks). -/
def bestSplit (s : List Char) : Option Nat :=
  bestSplitGo s (s.length + 1)

/-- Decimal value of an ASCII digit run.  The code obtains this value with
parse::<u32>().unwrap(), which panics on runs that are not pure ASCII digits
with value at most u32Max; that failure path is modeled by
expandLineChecked, while this function is the value on the success path. -/
def digitsToNat (ds : List Char) : Nat :=
  ds.foldl (fun acc c => acc * 10 + (c.toNat - 48)) 0

/-- ASCII projection of Regex::captures for (.*) --depth (\d+) on a line:
none when the line has no match, otherwise the captured dir and the depth
value.  Exact on every line on which the program completes (see
expandLineChecked_sound). -/
def depthCapture (line : String) : Option (String × Nat) :=
  match bestSplit line.data with
  | some i =>
    some (String.mk (line.data.take i),
      digitsToNat ((line.data.drop (i + depthPat.data.length)).takeWhile Char.isDigit))
  | none => none

/-- Projects contributed by one project-list line (main.rs:198-219): a depth
entry contributes its dir followed by the walker output for that dir and
depth; any other line contributes itself verbatim.  walk dir depth stands for
the stdout lines of find -L dir -maxdepth depth -type d.  This is the total
projection of expandLineChecked: the two agree whenever the program
completes on the line (expandLineChecked_sound). -/
def expandLine (walk : String → Nat → List String) (line : String) : List Project :=
  match depthCapture line with
  | some (dir, depth) => Project.mk dir :: (walk dir depth).map Project.mk
  | none => [Project.mk line]

/-- The non-ASCII ranges of the Unicode decimal-digit category Nd, as
inclusive code point ranges (Unicode 15.0, the table era of the regex crate
releases contemporary with this code; the repository ships no lockfile under
src, so the exact crate release is not recorded).  The regex class \d
denotes the whole category: these ranges together with the ASCII digits. -/
def ndExtraRanges : List (Nat × Nat) := [
  (0x0660, 0x0669), (0x06F0, 0x06F9), (0x07C0, 0x07C9), (0x0966, 0x096F),
  (0x09E6, 0x09EF), (0x0A66, 0x0A6F), (0x0AE6, 0x0AEF), (0x0B66, 0x0B6F),
  (0x0BE6, 0x0BEF), (0x0C66, 0x0C6F), (0x0CE6, 0x0CEF), (0x0D66, 0x0D6F),
  (0x0DE6, 0x0DEF), (0x0E50, 0x0E59), (0x0ED0, 0x0ED9), (0x0F20, 0x0F29),
  (0x1040, 0x1049), (0x1090, 0x1099), (0x17E0, 0x17E9), (0x1810, 0x1819),
  (0x1946, 0x194F), (0x19D0, 0x19D9), (0x1A80, 0x1A89), (0x1A90, 0x1A99),
  (0x1B50, 0x1B59), (0x1BB0, 0x1BB9), (0x1C40, 0x1C49), (0x1C50, 0x1C59),
  (0xA620, 0xA629), (0xA8D0, 0xA8D9), (0xA900, 0xA909), (0xA9D0, 0xA9D9),
  (0xA9F0, 0xA9F9), (0xAA50, 0xAA59), (0xABF0, 0xABF9), (0xFF10, 0xFF19),
  (0x104A0, 0x104A9), (0x10D30, 0x10D39), (0x11066, 0x1106F),
  (0x110F0, 0x110F9), (0x11136, 0x1113F), (0x111D0, 0x111D9),
  (0x112F0, 0x112F9), (0x11450, 0x11459), (0x114D0, 0x114D9),
  (0x11650, 0x11659), (0x116C0, 0x116C9), (0x11730, 0x11739),
  (0x118E0, 0x118E9), (0x11950, 0x11959), (0x11C50, 0x11C59),
  (0x11D50, 0x11D59), (0x11DA0, 0x11DA9), (0x11F50, 0x11F59),
  (0x16A60, 0x16A69), (0x16AC0, 0x16AC9), (0x16B50, 0x16B59),
  (0x1D7CE, 0x1D7FF), (0x1E140, 0x1E149), (0x1E2F0, 0x1E2F9),
  (0x1E4F0, 0x1E4F9), (0x1E950, 0x1E959), (0x1FBF0, 0x1FBF9)]

/-- The regex character class \d (Unicode category Nd): an ASCII digit or a
member of one of the other Nd blocks. -/
def isNd (c : Char) : Bool :=
  c.isDigit || ndExtraRanges.any (fun r => decide (r.1 ≤ c.toNat ∧ c.toNat ≤ r.2))

/-- Does the depth separator followed by a \d digit occur at offset i of s
(the exact regex condition). -/
def matchAtNd (s : List Char) (i : Nat) : Bool :=
  depthPat.data.isPrefixOf (s.drop i) &&
    (match s.drop (i + depthPat.data.length) with
     | c :: _ => isNd c
     | [] => false)

/-- Scan offsets k-1, k-2, ..., 0 and return the largest offset at which
matchAtNd holds. -/
def bestSplitNdGo (s : List Char) : Nat → Option Nat
  | 0 => none
  | k + 1 => if matchAtNd s k then some k else bestSplitNdGo s k

/-- The split offset the regex engine picks: the largest offset at which the
depth separator followed by a \d digit occurs. -/
def bestSplitNd (s : List Char) : Option Nat :=
  bestSplitNdGo s (s.length + 1)

/-- The largest value parse::<u32> accepts. -/
def u32Max : Nat := 4294967295

/-- Exact model of one project-list line in get_projects (main.rs:198-219),
including the depth parse at main.rs:201: when the regex matches, the
captured depth text is the maximal \d run after the last separator-digit
occurrence, and parse::<u32>().unwrap() panics - modeled as none - unless
that run is pure ASCII digits with value at most u32Max.  On a successful
parse the line contributes its dir followed by the walker output; a line
without a match contributes itself as a plain path. -/
def expandLineChecked (walk : String → Nat → List String) (line : String) :
    Option (List Project) :=
  match bestSplitNd line.data with
  | some i =>
    let ds := (line.data.drop (i + depthPat.data.length)).takeWhile isNd
    if ds.all Char.isDigit = true ∧ digitsToNat ds ≤ u32Max then
      some (Project.mk (String.mk (line.data.take i)) ::
        (walk (String.mk (line.data.take i)) (digitsToNat ds)).map Project.mk)
    else none
  | none => some [Project.mk line]

def expandAll (walk : String → Nat → List String) : List String → List Project
  | [] => []
  | l :: ls => expandLine walk l ++ expandAll walk ls

/-- The session name extracted from one tmux list-sessions output line:
the part before the first colon (main.rs:183). -/
def sessName (s : String) : String :=
  String.mk (s.data.takeWhile (fun c => decide (c ≠ ':')))

/-- Keep each project whose path was not seen yet, first occurrence wins
(the HashSet filter at main.rs:224-227). -/
def dedupPath : List String → List Project → List Project
  | _, [] => []
  | seen, p :: ps =>
    if p.path ∈ seen then dedupPath seen ps
    else p :: dedupPath (p.path :: seen) ps

/-- The combined candidate sequence before deduplication: project-list lines
in file order with depth expansion inline, then live session names.
fileLines is none when reading the project list fails (missing file). -/
def combinedSources (walk : String → Nat → List String)
    (fileLines : Option (List String)) (sessionLines : List String) : List Project :=
  (match fileLines with
   | some ls => expandAll walk ls
   | none => []) ++ sessionLines.map (fun l => Project.mk (sessName l))

/-- get_projects (main.rs:191-228). -/
def get_projects (walk : String → Nat → List String)
    (fileLines : Option (List String)) (sessionLines : List String) : List Project :=
  dedupPath [] (combinedSources walk fileLines sessionLines)

/-!  History ranking (reorder_projects_by_history, main.rs:230-248).
The HashMap from display label to project is built by inserting every
project in order, so a lookup returns the last project carrying the label. -/

/-- The history walk of reorder_projects_by_history: for each history label,
look up the last project with that display label and emit it unless its path
was already seen.  Returns the emitted projects and the final seen set. -/
def histPick (user : String) (projects : List Project) (seen : List String) :
    List String → List Project × List String
  | [] => ([], seen)
  | h :: hs =>
    match projects.reverse.find? (fun p => decide (Project.to_fzf_display user p = h)) with
    | some p =>
      if p.path ∈ seen then histPick user projects seen hs
      else
        let r := histPick user projects (p.path :: seen) hs
        (p :: r.1, r.2)
    | none => histPick user projects seen hs

/-- reorder_projects_by_history (main.rs:230-248). -/
def reorder_projects_by_history (user : String) (history : List String)
    (projects : List Project) : List Project :=
  let r := histPick user projects [] history
  r.1 ++ dedupPath r.2 projects

/-!  The default flow (main_execution, main.rs:295-388). -/

/-- Everything main_execution reads from its surroundings: the current user
name, the history file lines, existence and modification time of the project
list file and its lines, the cache file state (modification time and lines,
none when absent), the directory walker, the tmux list-sessions lines, the
current tmux session name (none when tmux display-message fails), and the
trimmed fzf output as a function of the lines piped to fzf. -/
structure Env where
  user : String
  historyLines : List String
  listExists : Bool
  listLines : List String
  listMtime : Nat
  cache : Option (Nat × List String)
  walk : String → Nat → List String
  sessionLines : List String
  currentSession : Option String
  fzfChoice : List String → String

/-- The observable effects of one main_execution run: the lines written to
the cache file (none when the cache was fresh), the lines piped to fzf, the
lines written to the history file (none on empty selection), and the project
handed to move_to_tmux_session (none on empty selection or no match). -/
structure MainResult where
  cacheWrite : Option (List String)
  fzfInput : List String
  historyWrite : Option (List String)
  action : Option Project
deriving DecidableEq, Repr

/-- The cache decision (main.rs:300-324): reuse the cache file verbatim when
it exists and its modification time is at least the project list one,
otherwise rerun get_projects and overwrite the cache with its path list.
Returns the project list used and the cache write. -/
def mainProjects (e : Env) : List Project × Option (List String) :=
  match e.cache with
  | some (cm, clines) =>
    if e.listMtime ≤ cm then (clines.map Project.mk, none)
    else
      let ps := get_projects e.walk (some e.listLines) e.sessionLines
      (ps, some (ps.map Project.path))
  | none =>
    let ps := get_projects e.walk (some e.listLines) e.sessionLines
    (ps, some (ps.map Project.path))

/-- The history-reordered projects of the run (main.rs:325). -/
def rankedProjects (e : Env) : List Project :=
  reorder_projects_by_history e.user e.historyLines (mainProjects e).1

/-- project_set (main.rs:327-337): display labels of all used projects,
except the one equal to the current session name. -/
def projectSet (e : Env) : List String :=
  (mainProjects e).1.filterMap (fun p =>
    match e.currentSession with
    | some cs =>
      if Project.to_fzf_display e.user p = cs then none
      else some (Project.to_fzf_display e.user p)
    | none => some (Project.to_fzf_display e.user p))

/-- Emit each string not seen yet, threading the seen set. -/
def dedupStrSeen : List String → List String → List String
  | _, [] => []
  | seen, x :: xs =>
    if x ∈ seen then dedupStrSeen seen xs
    else x :: dedupStrSeen (x :: seen) xs

/-- The lines piped to fzf (main.rs:338-350): history lines that are in
project_set, deduplicated, then the display labels of the reordered projects
not pushed yet. -/
def fzf_input (e : Env) : List String :=
  let p1 := dedupStrSeen [] (e.historyLines.filter (fun i => decide (i ∈ projectSet e)))
  p1 ++ dedupStrSeen p1 ((rankedProjects e).map (Project.to_fzf_display e.user))

/-- One history file update (main.rs:370-377): prepend the selected label,
drop its other occurrences, truncate to 2000 lines. -/
def histStep (h : List String) (s : String) : List String :=
  (s :: h.filter (fun x => decide (x ≠ s))).take 2000

/-- main_execution (main.rs:295-388).  none models the panic of
metadata(projects_file).expect when the project list file is missing; on an
empty trimmed fzf output the run returns before writing history and before
any tmux activation; otherwise the history file is rewritten and the first
reordered project whose display label equals the selection is activated. -/
def main_execution (e : Env) : Option MainResult :=
  if e.listExists then
    let selected := e.fzfChoice (fzf_input e)
    if selected = "" then
      some (MainResult.mk (mainProjects e).2 (fzf_input e) none none)
    else
      some (MainResult.mk (mainProjects e).2 (fzf_input e)
        (some (histStep e.historyLines selected))
        ((rankedProjects e).find?
          (fun p => decide (Project.to_fzf_display e.user p = selected))))
  else none

/-- add_project (main.rs:129-140): append the directory unless it is already
a line of the project list, then rewrite the file with those lines. -/
def add_project (lines : List String) (dir : String) : List String :=
  if dir ∈ lines then lines else lines ++ [dir]

/-!  Claim-side definitions.  Each of the following definitions transcribes
the wording of a specification claim, to be compared with the definitions
above that were transcribed from the source. -/

/-- Spec wording of first-occurrence deduplication: each path appears exactly
once, at the position of its first occurrence, later occurrences erased. -/
def firstOccSpec : List Project → List Project
  | [] => []
  | p :: ps => p :: firstOccSpec (ps.filter (fun q => decide (q.path ≠ p.path)))
termination_by l => l.length
decreasing_by
  simp only [List.length_cons]
  exact Nat.lt_succ_of_le (List.length_filter_le _ _)

/-- Spec wording of the history walk: walk the history in order; a label
already handled is skipped, otherwise the candidate carrying that label is
emitted.  cands is the deduplicated candidate list. -/
def specVisited (user : String) (cands : List Project) (done : List String) :
    List String → List Project
  | [] => []
  | h :: hs =>
    if h ∈ done then specVisited user cands done hs
    else
      match cands.find? (fun p => decide (Project.to_fzf_display user p = h)) with
      | some p => p :: specVisited user cands (h :: done) hs
      | none => specVisited user cands done hs

/-- Spec wording of reorder_projects_by_history: each candidate once by path
identity; candidates whose display label occurs in the history first, in
history order; all remaining candidates after them in original order. -/
def specReorder (user : String) (history : List String)
    (projects : List Project) : List Project :=
  specVisited user (firstOccSpec projects) [] history ++
    (firstOccSpec projects).filter
      (fun p => decide (Project.to_fzf_display user p ∉ history))

/-- Spec wording of the ordering constraint of claim C2: every candidate
whose display label occurs in the history comes before every candidate whose
display label does not. -/
def VisitedFirst (user : String) (history : List String) (out : List Project) : Prop :=
  ∀ i j : Fin out.length,
    Project.to_fzf_display user (out.get i) ∈ history →
    Project.to_fzf_display user (out.get j) ∉ history →
    i.val < j.val

/-- Claim C9 wording of a well-formed depth entry: exactly a path followed by
the separator and a digit run that ends the line. -/
def WellFormedDepthLine (line : String) : Prop :=
  ∃ dir ds : List Char, ds ≠ [] ∧ (∀ c ∈ ds, c.isDigit) ∧
    line.data = dir ++ depthPat.data ++ ds

/-- The condition under which the unanchored regex of get_projects matches a
line: the depth separator immediately followed by a \d digit occurs
somewhere. -/
def HasDepthMatchNd (line : String) : Prop :=
  ∃ a : List Char, ∃ d : Char, ∃ rest : List Char,
    line.data = a ++ depthPat.data ++ d :: rest ∧ isNd d = true

/-- pat occurs somewhere inside s. -/
def Occurs (pat s : List Char) : Prop := ∃ a b : List Char, s = a ++ pat ++ b

/-- A decomposition of a string into the stretches between the matched,
non-overlapping, leftmost-first occurrences of pat: no occurrence inside the
final stretch, and inside any earlier stretch extended by pat the only
occurrence is the final one (no earlier overlapping occurrence). -/
def LeftmostParts (pat : List Char) (parts : List (List Char)) : Prop :=
  (∀ l, parts.getLast? = some l → ¬ Occurs pat l) ∧
  (∀ pre ∈ parts.dropLast, ∀ a b : List Char,
     pre ++ pat = a ++ pat ++ b → pre.length ≤ a.length)

/-- Interleave sep between the parts. -/
def interc (sep : List Char) : List (List Char) → List Char
  | [] => []
  | [a] => a
  | a :: b :: rest => a ++ sep ++ interc sep (b :: rest)

/-- Declarative spec of replacing every occurrence of pat by rep: t is s
with each matched stretch boundary rewritten, matching leftmost-first and
without overlap. -/
def Replaced (pat rep s t : List Char) : Prop :=
  ∃ parts : List (List Char), parts ≠ [] ∧
    s = interc pat parts ∧ t = interc rep parts ∧ LeftmostParts pat parts

/-- Claim C8 wording of the display label: only a leading occurrence of the
home prefix is rewritten to a tilde (the alternate root and dot stages as in
the code). -/
def displayLeadingSpec (user : String) (path : String) : String :=
  let s1 : List Char :=
    if (homePat user).data.isPrefixOf path.data then
      '~' :: path.data.drop (homePat user).data.length
    else path.data
  String.mk (replaceAllL ['.'] [] (replaceAllL codeRoot.data "code".data s1))

/-!  Claim C1. -/

/-- A run inside tmux: the current session is named x, the cache is fresh and
holds the single candidate path x, the history is empty. -/
def envC1 : Env :=
  ⟨"u", [], true, [], 0, some (0, ["x"]), fun _ _ => [], [], some "x", fun _ => ""⟩

/-- C1: the claim and the specification say the display label of the current
active session is excluded from the list piped to fzf.  The code computes
project_set with that exclusion (main.rs:327-337) but the second push loop
(main.rs:346-350) does not consult project_set, so the label of the only
candidate, which equals the current session name, is piped to fzf anyway. -/
theorem c1_current_session_label_in_picker_input :
    envC1.currentSession = some "x" ∧
    (mainProjects envC1).1 = [Project.mk "x"] ∧
    Project.to_fzf_display envC1.user (Project.mk "x") = "x" ∧
    projectSet envC1 = [] ∧
    fzf_input envC1 = ["x"] := by
  decide

/-!  Claim C4. -/

/-- C4: when the cache file is absent or strictly older than the project
list, mainProjects reruns get_projects, uses its result and writes its path
list over the cache; when the cache modification time is at least the list
one, the cache lines are used verbatim and nothing is recomputed. -/
theorem c4_cache_staleness (e : Env) :
    ((e.cache = none ∨
        ∃ cm clines, e.cache = some (cm, clines) ∧ cm < e.listMtime) →
      mainProjects e =
        (get_projects e.walk (some e.listLines) e.sessionLines,
         some ((get_projects e.walk (some e.listLines) e.sessionLines).map Project.path))) ∧
    (∀ cm clines, e.cache = some (cm, clines) → e.listMtime ≤ cm →
      mainProjects e = (clines.map Project.mk, none)) := by
  constructor
  · intro h
    rcases h with h | ⟨cm, clines, hc, hlt⟩
    · simp [mainProjects, h]
    · have : ¬ e.listMtime ≤ cm := by omega
      simp [mainProjects, hc, this]
  · intro cm clines hc hle
    simp [mainProjects, hc, hle]

/-- A run with a stale cache: cache time 3, list time 5. -/
def envC4 : Env :=
  ⟨"u", [], true, ["p"], 5, some (3, ["c"]), fun _ _ => [], [], none, fun _ => ""⟩

theorem c4_witness :
    mainProjects envC4 =
      (get_projects envC4.walk (some envC4.listLines) envC4.sessionLines,
       some ((get_projects envC4.walk (some envC4.listLines) envC4.sessionLines).map Project.path)) :=
  (c4_cache_staleness envC4).1 (Or.inr ⟨3, ["c"], rfl, by decide⟩)

/-!  Claim C6. -/

/-- C6: when the trimmed fzf output is empty, the run ends without writing
the history file and without selecting any project for tmux activation. -/
theorem c6_empty_selection_noop (e : Env) (r : MainResult)
    (h : main_execution e = some r)
    (hemp : e.fzfChoice (fzf_input e) = "") :
    r.historyWrite = none ∧ r.action = none := by
  unfold main_execution at h
  by_cases hl : e.listExists
  · rw [if_pos hl] at h
    simp only [hemp, if_pos rfl] at h
    cases h
    exact ⟨rfl, rfl⟩
  · rw [if_neg hl] at h
    cases h

/-- A run whose fzf choice is empty. -/
def envC6 : Env :=
  ⟨"u", ["h1"], true, [], 0, some (0, ["x"]), fun _ _ => [], [], none, fun _ => ""⟩

theorem c6_witness :
    (MainResult.mk none ["x"] none none).historyWrite = none ∧
    (MainResult.mk none ["x"] none none).action = none :=
  c6_empty_selection_noop envC6 (MainResult.mk none ["x"] none none) (by decide) rfl

/-!  Claim C7. -/

/-- C7 amended: a missing project list is recovered as empty content by the
aggregation (get_projects contributes only live sessions), but the default
flow itself panics on the metadata call when the project list file is
missing (main.rs:301-302), so the invocation aborts instead of proceeding. -/
theorem c7_missing_list_aborts (walk : String → Nat → List String)
    (sessions : List String) (e : Env) :
    get_projects walk none sessions =
      dedupPath [] (sessions.map (fun l => Project.mk (sessName l))) ∧
    (e.listExists = false → main_execution e = none) := by
  constructor
  · rfl
  · intro h
    unfold main_execution
    simp [h]

/-- A default-flow run with the project list file missing. -/
def envC7 : Env :=
  ⟨"u", [], false, [], 0, none, fun _ _ => [], [], none, fun _ => ""⟩

/-- The same run with the project list file present. -/
def envC7b : Env :=
  ⟨"u", [], true, [], 0, none, fun _ _ => [], [], none, fun _ => ""⟩

/-- C7 counterexample: with the project list file missing the default flow
aborts (the metadata expect panics), while the identical run with the file
present completes normally; so the missing list is not recovered as empty
content by the default flow. -/
theorem c7_counterexample :
    main_execution envC7 = none ∧
    main_execution envC7b = some (MainResult.mk (some []) [] none none) := by
  decide

theorem c7_witness : main_execution envC7 = none :=
  (c7_missing_list_aborts envC7.walk envC7.sessionLines envC7).2 rfl

/-!  Claim C10. -/

/-- C10: adding a directory that is already a line of the project list
rewrites the file with the same lines, and adding twice equals adding once. -/
theorem c10_add_idempotent (lines : List String) (dir : String) :
    (dir ∈ lines → add_project lines dir = lines) ∧
    add_project (add_project lines dir) dir = add_project lines dir := by
  constructor
  · intro h
    simp [add_project, h]
  · by_cases h : dir ∈ lines
    · simp [add_project, h]
    · simp [add_project, h]

theorem c10_witness : add_project ["/a", "/b"] "/a" = ["/a", "/b"] :=
  (c10_add_idempotent ["/a", "/b"] "/a").1 (by decide)

/-!  Claim C5. -/

theorem foldl_histStep_aux :
    ∀ (sels pre junk : List String), sels.Nodup → (∀ s ∈ sels, s ∉ pre) →
      ∃ junk2 : List String,
        List.foldl histStep ((pre ++ junk).take 2000) sels =
          ((sels.reverse ++ pre) ++ junk2).take 2000 := by
  intro sels
  induction sels with
  | nil =>
    intro pre junk _ _
    exact ⟨junk, by simp⟩
  | cons s rest ih =>
    intro pre junk hnd hdisj
    have hs_pre : s ∉ pre := hdisj s (by simp)
    have hstep : ∃ junk1 : List String,
        histStep ((pre ++ junk).take 2000) s = ((s :: pre) ++ junk1).take 2000 := by
      by_cases hlong : 2000 ≤ pre.length
      · have h0 : (pre ++ junk).take 2000 = pre.take 2000 :=
          List.take_append_of_le_length hlong
        have hfil : (pre.take 2000).filter (fun x => decide (x ≠ s)) = pre.take 2000 := by
          rw [List.filter_eq_self]
          intro a ha
          have : a ∈ pre := List.mem_of_mem_take ha
          simp only [decide_eq_true_eq]
          intro heq
          exact hs_pre (heq ▸ this)
        refine ⟨[], ?_⟩
        unfold histStep
        rw [h0, hfil]
        rw [List.take_succ_cons]
        rw [List.take_take]
        have hmin : min 1999 2000 = 1999 := by omega
        rw [hmin]
        have : ((s :: pre) ++ []).take 2000 = (s :: pre).take 2000 := by simp
        rw [this, List.take_succ_cons]
      · have hple : pre.length ≤ 2000 := by omega
        have h0 : (pre ++ junk).take 2000 = pre ++ junk.take (2000 - pre.length) := by
          rw [List.take_append_eq_append_take]
          congr 1
          exact List.take_of_length_le hple
        have hfil : pre.filter (fun x => decide (x ≠ s)) = pre := by
          rw [List.filter_eq_self]
          intro a ha
          simp only [decide_eq_true_eq]
          intro heq
          exact hs_pre (heq ▸ ha)
        refine ⟨(junk.take (2000 - pre.length)).filter (fun x => decide (x ≠ s)), ?_⟩
        unfold histStep
        rw [h0, List.filter_append, hfil]
        rfl
    rcases hstep with ⟨junk1, hstep⟩
    have hnd2 : rest.Nodup := (List.nodup_cons.mp hnd).2
    have hsrest : s ∉ rest := (List.nodup_cons.mp hnd).1
    have hdisj2 : ∀ t ∈ rest, t ∉ s :: pre := by
      intro t ht
      simp only [List.mem_cons]
      rintro (rfl | hmem)
      · exact hsrest ht
      · exact hdisj t (by simp [ht]) hmem
    rcases ih (s :: pre) junk1 hnd2 hdisj2 with ⟨junk2, hres⟩
    refine ⟨junk2, ?_⟩
    simp only [List.foldl_cons]
    rw [hstep, hres]
    congr 1
    rw [List.reverse_cons]
    simp [List.append_assoc]

theorem foldl_histStep_cap (sels h0 : List String)
    (hnd : sels.Nodup) (hlen : sels.length = 2001) :
    List.foldl histStep h0 sels = sels.reverse.take 2000 := by
  cases sels with
  | nil => simp at hlen
  | cons s rest =>
    have hnd2 : rest.Nodup := (List.nodup_cons.mp hnd).2
    have hsrest : s ∉ rest := (List.nodup_cons.mp hnd).1
    have hdisj : ∀ t ∈ rest, t ∉ [s] := by
      intro t ht
      simp only [List.mem_singleton]
      rintro rfl
      exact hsrest ht
    have hstep : histStep h0 s = (([s] ++ h0.filter (fun x => decide (x ≠ s)))).take 2000 := rfl
    rcases foldl_histStep_aux rest [s] (h0.filter (fun x => decide (x ≠ s))) hnd2 hdisj with
      ⟨junk2, hres⟩
    simp only [List.foldl_cons]
    rw [hstep, hres]
    rw [List.reverse_cons]
    have hrl : (rest.reverse ++ [s]).length = 2001 := by
      simp only [List.length_append, List.length_reverse, List.length_singleton]
      have : rest.length = 2000 := by simpa using hlen
      omega
    rw [List.take_append_of_le_length (by omega)]

/-- C5: after a nonempty selection the rewritten history equals the selected
label followed by the previous lines with that label removed, truncated to
2000; and 2001 sequential distinct selections leave exactly the 2000 most
recent labels, most recent first, without duplicates. -/
theorem c5_history_update_cap (e : Env) (r : MainResult) (sels h0 : List String) :
    (main_execution e = some r → e.fzfChoice (fzf_input e) ≠ "" →
      r.historyWrite = some ((e.fzfChoice (fzf_input e) ::
        e.historyLines.filter (fun x => decide (x ≠ e.fzfChoice (fzf_input e)))).take 2000)) ∧
    (sels.Nodup → sels.length = 2001 →
      List.foldl histStep h0 sels = sels.reverse.take 2000 ∧
      (List.foldl histStep h0 sels).length = 2000 ∧
      (List.foldl histStep h0 sels).Nodup) := by
  constructor
  · intro h hne
    unfold main_execution at h
    by_cases hl : e.listExists
    · rw [if_pos hl] at h
      rw [if_neg hne] at h
      cases h
      rfl
    · rw [if_neg hl] at h
      cases h
  · intro hnd hlen
    have heq := foldl_histStep_cap sels h0 hnd hlen
    refine ⟨heq, ?_, ?_⟩
    · rw [heq]
      simp only [List.length_take, List.length_reverse, hlen]
      omega
    · rw [heq]
      exact (List.take_sublist _ _).nodup (List.nodup_reverse.mpr hnd)

/-- A run selecting the label new over prior history old. -/
def envC5 : Env :=
  ⟨"u", ["old"], true, [], 0, some (0, []), fun _ _ => [], [], none, fun _ => "new"⟩

/-- 2001 pairwise distinct labels. -/
def capSels : List String :=
  (List.range 2001).map (fun n => String.mk (List.replicate n 'a'))

theorem c5_witness :
    (MainResult.mk none [] (some ["new", "old"]) none).historyWrite =
      some (("new" :: ["old"].filter (fun x => decide (x ≠ "new"))).take 2000) ∧
    List.foldl histStep [] capSels = capSels.reverse.take 2000 := by
  have h := c5_history_update_cap envC5 (MainResult.mk none [] (some ["new", "old"]) none)
    capSels []
  constructor
  · exact h.1 (by decide) (by decide)
  · have hinj : Function.Injective (fun n => String.mk (List.replicate n 'a')) := by
      intro a b hab
      simpa using congrArg (fun s => s.data.length) hab
    have hnd : capSels.Nodup := (List.nodup_range 2001).map hinj
    have hlen : capSels.length = 2001 := by simp [capSels]
    exact (h.2 hnd hlen).1

/-!  Claim C3. -/

/-- Number of elements of l whose path equals s. -/
def countPath (s : String) : List Project → Nat
  | [] => 0
  | p :: ps => (if p.path = s then 1 else 0) + countPath s ps

theorem countPath_eq_zero (s : String) :
    ∀ l : List Project, (∀ q ∈ l, q.path ≠ s) → countPath s l = 0 := by
  intro l
  induction l with
  | nil => intro _; rfl
  | cons q qs ih =>
    intro h
    unfold countPath
    rw [if_neg (h q (by simp))]
    rw [ih (fun r hr => h r (by simp [hr]))]

theorem mem_firstOccSpec : ∀ (l : List Project) (a : Project),
    a ∈ firstOccSpec l ↔ a ∈ l := by
  intro l
  induction l using firstOccSpec.induct with
  | case1 =>
    intro a
    simp [firstOccSpec]
  | case2 p ps ih =>
    intro a
    rw [firstOccSpec]
    constructor
    · intro h
      rcases List.mem_cons.mp h with rfl | h2
      · exact List.mem_cons_self _ _
      · have := (ih a).mp h2
        exact List.mem_cons_of_mem _ (List.mem_of_mem_filter this)
    · intro h
      rcases List.mem_cons.mp h with rfl | h2
      · exact List.mem_cons_self _ _
      · by_cases hp : a.path = p.path
        · have : a = p := (Project.eq_iff_path a p).mpr hp
          rw [this]
          exact List.mem_cons_self _ _
        · refine List.mem_cons_of_mem _ ((ih a).mpr ?_)
          rw [List.mem_filter]
          exact ⟨h2, by simpa using hp⟩

theorem countPath_firstOccSpec : ∀ (l : List Project) (p : Project),
    p ∈ l → countPath p.path (firstOccSpec l) = 1 := by
  intro l
  induction l using firstOccSpec.induct with
  | case1 =>
    intro p h
    cases h
  | case2 q qs ih =>
    intro p h
    rw [firstOccSpec]
    unfold countPath
    by_cases hpq : p.path = q.path
    · rw [if_pos hpq.symm]
      have hzero : countPath p.path (firstOccSpec (qs.filter (fun r => decide (r.path ≠ q.path)))) = 0 := by
        apply countPath_eq_zero
        intro r hr
        have := (mem_firstOccSpec _ r).mp hr
        have := List.of_mem_filter this
        simp only [decide_eq_true_eq] at this
        rw [hpq]
        exact this
      rw [hzero]
    · rw [if_neg (fun he => hpq he.symm)]
      have hmem : p ∈ qs := by
        rcases List.mem_cons.mp h with rfl | h2
        · exact absurd rfl hpq
        · exact h2
      have hf : p ∈ qs.filter (fun r => decide (r.path ≠ q.path)) := by
        rw [List.mem_filter]
        exact ⟨hmem, by simpa using hpq⟩
      rw [ih p hf]

theorem dedupPath_eq_firstOcc :
    ∀ (l : List Project) (seen : List String),
      dedupPath seen l = firstOccSpec (l.filter (fun p => decide (p.path ∉ seen))) := by
  intro l
  induction l with
  | nil =>
    intro seen
    simp only [List.filter_nil]
    rw [firstOccSpec]
    rfl
  | cons p ps ih =>
    intro seen
    by_cases hp : p.path ∈ seen
    · rw [List.filter_cons_of_neg (by simpa using hp)]
      unfold dedupPath
      rw [if_pos hp]
      exact ih seen
    · rw [List.filter_cons_of_pos (by simpa using hp)]
      unfold dedupPath
      rw [if_neg hp]
      rw [firstOccSpec]
      congr 1
      rw [ih (p.path :: seen)]
      congr 1
      rw [List.filter_filter]
      apply List.filter_congr
      intro a _
      by_cases h1 : a.path = p.path
      · simp [h1]
      · by_cases h2 : a.path ∈ seen
        · simp [h1, h2]
        · simp [h1, h2]

theorem dedupPath_nil_eq_firstOcc (l : List Project) :
    dedupPath [] l = firstOccSpec l := by
  rw [dedupPath_eq_firstOcc]
  congr 1
  apply List.filter_eq_self.mpr
  intro a _
  simp

/-- C3: get_projects returns the combined sequence (project-list lines in
file order with depth expansion inline, then live session names) with each
path kept exactly once, at the position of its first occurrence. -/
theorem c3_get_projects_first_occurrence (walk : String → Nat → List String)
    (fileLines : Option (List String)) (sessionLines : List String) :
    get_projects walk fileLines sessionLines =
      firstOccSpec (combinedSources walk fileLines sessionLines) ∧
    ∀ p ∈ combinedSources walk fileLines sessionLines,
      countPath p.path (get_projects walk fileLines sessionLines) = 1 := by
  constructor
  · unfold get_projects
    exact dedupPath_nil_eq_firstOcc _
  · intro p hp
    unfold get_projects
    rw [dedupPath_nil_eq_firstOcc]
    exact countPath_firstOccSpec _ p hp

theorem c3_witness :
    get_projects (fun _ _ => []) (some ["/a", "/a"]) ["s1"] =
      firstOccSpec (combinedSources (fun _ _ => []) (some ["/a", "/a"]) ["s1"]) ∧
    countPath "/a" (get_projects (fun _ _ => []) (some ["/a", "/a"]) ["s1"]) = 1 :=
  ⟨(c3_get_projects_first_occurrence (fun _ _ => []) (some ["/a", "/a"]) ["s1"]).1,
   (c3_get_projects_first_occurrence (fun _ _ => []) (some ["/a", "/a"]) ["s1"]).2
     (Project.mk "/a") (by decide)⟩

/-!  Claim C2. -/

theorem countPath_append (s : String) (l1 l2 : List Project) :
    countPath s (l1 ++ l2) = countPath s l1 + countPath s l2 := by
  induction l1 with
  | nil => simp [countPath]
  | cons p ps ih =>
    simp only [List.cons_append, countPath, List.append_eq]
    rw [ih]
    omega

theorem find?_unique_congr (P : Project → Bool) (l1 l2 : List Project)
    (hmem : ∀ a : Project, a ∈ l1 ↔ a ∈ l2)
    (huniq : ∀ a b : Project, a ∈ l1 → b ∈ l1 → P a = true → P b = true → a = b) :
    l1.find? P = l2.find? P := by
  cases h1 : l1.find? P with
  | none =>
    have hno := List.find?_eq_none.mp h1
    cases h2 : l2.find? P with
    | none => rfl
    | some b =>
      have hb : b ∈ l2 := List.mem_of_find?_eq_some h2
      have hPb : P b = true := List.find?_some h2
      exact absurd hPb (hno b ((hmem b).mpr hb))
  | some a =>
    have ha : a ∈ l1 := List.mem_of_find?_eq_some h1
    have hPa : P a = true := List.find?_some h1
    cases h2 : l2.find? P with
    | none =>
      have hno := List.find?_eq_none.mp h2
      exact absurd hPa (hno a ((hmem a).mp ha))
    | some b =>
      have hb : b ∈ l1 := (hmem b).mpr (List.mem_of_find?_eq_some h2)
      have hPb : P b = true := List.find?_some h2
      rw [huniq a b ha hb hPa hPb]

theorem histPick_fst (user : String) (projects : List Project)
    (hinj : ∀ p ∈ projects, ∀ q ∈ projects,
      Project.to_fzf_display user p = Project.to_fzf_display user q → p = q) :
    ∀ (hs seen done : List String),
      (∀ p ∈ projects, (p.path ∈ seen ↔ Project.to_fzf_display user p ∈ done)) →
      (histPick user projects seen hs).1 =
        specVisited user (firstOccSpec projects) done hs := by
  intro hs
  induction hs with
  | nil => intro seen done _; rfl
  | cons h hs ih =>
    intro seen done hsd
    have hfind : projects.reverse.find?
          (fun p => decide (Project.to_fzf_display user p = h)) =
        (firstOccSpec projects).find?
          (fun p => decide (Project.to_fzf_display user p = h)) := by
      apply find?_unique_congr
      · intro a
        rw [List.mem_reverse, mem_firstOccSpec]
      · intro a b ha hb hpa hpb
        have ha2 : a ∈ projects := List.mem_reverse.mp ha
        have hb2 : b ∈ projects := List.mem_reverse.mp hb
        simp only [decide_eq_true_eq] at hpa hpb
        exact hinj a ha2 b hb2 (hpa.trans hpb.symm)
    simp only [histPick, specVisited, hfind]
    cases hfo : (firstOccSpec projects).find?
        (fun p => decide (Project.to_fzf_display user p = h)) with
    | none =>
      dsimp only
      by_cases hdone : h ∈ done
      · rw [if_pos hdone]
        exact ih seen done hsd
      · rw [if_neg hdone]
        exact ih seen done hsd
    | some p =>
      dsimp only
      have hp : Project.to_fzf_display user p = h := by
        have := List.find?_some hfo
        simpa using this
      have hpmem : p ∈ projects := (mem_firstOccSpec _ p).mp (List.mem_of_find?_eq_some hfo)
      by_cases hdone : h ∈ done
      · have hseen : p.path ∈ seen := (hsd p hpmem).mpr (hp ▸ hdone)
        rw [if_pos hseen, if_pos hdone]
        exact ih seen done hsd
      · have hseen : p.path ∉ seen := by
          intro hc
          exact hdone (hp ▸ (hsd p hpmem).mp hc)
        rw [if_neg hseen, if_neg hdone]
        simp only [List.cons.injEq, true_and]
        apply ih
        intro q hq
        simp only [List.mem_cons]
        constructor
        · rintro (hqp | hqs)
          · left
            rw [← hp]
            have : q = p := (Project.eq_iff_path q p).mpr hqp
            rw [this]
          · right
            exact (hsd q hq).mp hqs
        · rintro (hqd | hqd)
          · left
            have : q = p := hinj q hq p hpmem (by rw [hqd, hp])
            rw [this]
          · right
            exact (hsd q hq).mpr hqd

theorem histPick_snd_mem (user : String) (projects : List Project)
    (hinj : ∀ p ∈ projects, ∀ q ∈ projects,
      Project.to_fzf_display user p = Project.to_fzf_display user q → p = q) :
    ∀ (hs seen : List String) (s : String),
      s ∈ (histPick user projects seen hs).2 ↔
        s ∈ seen ∨ ∃ p, p ∈ projects ∧ p.path = s ∧
          Project.to_fzf_display user p ∈ hs := by
  intro hs
  induction hs with
  | nil =>
    intro seen s
    simp [histPick]
  | cons h hs ih =>
    intro seen s
    simp only [histPick]
    cases hfo : projects.reverse.find?
        (fun p => decide (Project.to_fzf_display user p = h)) with
    | none =>
      dsimp only
      have hno : ∀ p ∈ projects, Project.to_fzf_display user p ≠ h := by
        intro p hpm
        have := List.find?_eq_none.mp hfo p (List.mem_reverse.mpr hpm)
        simpa using this
      rw [ih seen s]
      constructor
      · rintro (hsm | ⟨p, hpm, hps, hph⟩)
        · exact Or.inl hsm
        · exact Or.inr ⟨p, hpm, hps, List.mem_cons_of_mem _ hph⟩
      · rintro (hsm | ⟨p, hpm, hps, hph⟩)
        · exact Or.inl hsm
        · rcases List.mem_cons.mp hph with heq | hph2
          · exact absurd heq (hno p hpm)
          · exact Or.inr ⟨p, hpm, hps, hph2⟩
    | some p =>
      dsimp only
      have hp : Project.to_fzf_display user p = h := by
        have := List.find?_some hfo
        simpa using this
      have hpmem : p ∈ projects := List.mem_reverse.mp (List.mem_of_find?_eq_some hfo)
      by_cases hseen : p.path ∈ seen
      · rw [if_pos hseen, ih seen s]
        constructor
        · rintro (hsm | ⟨q, hqm, hqs, hqh⟩)
          · exact Or.inl hsm
          · exact Or.inr ⟨q, hqm, hqs, List.mem_cons_of_mem _ hqh⟩
        · rintro (hsm | ⟨q, hqm, hqs, hqh⟩)
          · exact Or.inl hsm
          · rcases List.mem_cons.mp hqh with heq | hqh2
            · have : q = p := hinj q hqm p hpmem (by rw [heq, hp])
              subst this
              exact Or.inl (hqs ▸ hseen)
            · exact Or.inr ⟨q, hqm, hqs, hqh2⟩
      · rw [if_neg hseen]
        show s ∈ (histPick user projects (p.path :: seen) hs).2 ↔ _
        rw [ih (p.path :: seen) s]
        constructor
        · rintro (hsm | ⟨q, hqm, hqs, hqh⟩)
          · rcases List.mem_cons.mp hsm with heq | hsm2
            · exact Or.inr ⟨p, hpmem, heq.symm, by simp [hp]⟩
            · exact Or.inl hsm2
          · exact Or.inr ⟨q, hqm, hqs, List.mem_cons_of_mem _ hqh⟩
        · rintro (hsm | ⟨q, hqm, hqs, hqh⟩)
          · exact Or.inl (List.mem_cons_of_mem _ hsm)
          · rcases List.mem_cons.mp hqh with heq | hqh2
            · have : q = p := hinj q hqm p hpmem (by rw [heq, hp])
              subst this
              exact Or.inl (by simp [hqs])
            · exact Or.inr ⟨q, hqm, hqs, hqh2⟩

theorem dedupPath_drop_mem (s : String) :
    ∀ (l : List Project) (seen : List String), s ∈ seen →
      dedupPath seen l = dedupPath seen (l.filter (fun q => decide (q.path ≠ s))) := by
  intro l
  induction l with
  | nil => intro seen _; rfl
  | cons p ps ih =>
    intro seen hs
    by_cases hps : p.path = s
    · rw [List.filter_cons_of_neg (by simpa using hps)]
      have hred : dedupPath seen (p :: ps) = dedupPath seen ps := by
        simp only [dedupPath]
        rw [if_pos (hps ▸ hs)]
      rw [hred]
      exact ih seen hs
    · rw [List.filter_cons_of_pos (by simpa using hps)]
      simp only [dedupPath]
      by_cases hpseen : p.path ∈ seen
      · rw [if_pos hpseen, if_pos hpseen]
        exact ih seen hs
      · rw [if_neg hpseen, if_neg hpseen]
        rw [ih (p.path :: seen) (List.mem_cons_of_mem _ hs)]

theorem dedupPath_eq_spec_rest (user : String) (history : List String) :
    ∀ (l : List Project) (seen : List String),
      (∀ p ∈ l, (p.path ∈ seen ↔ Project.to_fzf_display user p ∈ history)) →
      dedupPath seen l = (firstOccSpec l).filter
        (fun p => decide (Project.to_fzf_display user p ∉ history)) := by
  intro l
  induction l using firstOccSpec.induct with
  | case1 =>
    intro seen _
    rw [firstOccSpec]
    rfl
  | case2 p ps ih =>
    intro seen hinv
    rw [firstOccSpec]
    by_cases hseen : p.path ∈ seen
    · have hhist : Project.to_fzf_display user p ∈ history :=
        (hinv p (by simp)).mp hseen
      rw [List.filter_cons_of_neg (by simpa using hhist)]
      unfold dedupPath
      rw [if_pos hseen]
      rw [dedupPath_drop_mem p.path ps seen hseen]
      apply ih
      intro q hq
      exact hinv q (List.mem_cons_of_mem _ (List.mem_of_mem_filter hq))
    · have hhist : Project.to_fzf_display user p ∉ history := by
        intro hc
        exact hseen ((hinv p (by simp)).mpr hc)
      rw [List.filter_cons_of_pos (by simpa using hhist)]
      unfold dedupPath
      rw [if_neg hseen]
      rw [dedupPath_drop_mem p.path ps (p.path :: seen) (by simp)]
      simp only [List.cons.injEq, true_and]
      apply ih
      intro q hq
      have hqp : q.path ≠ p.path := by
        have := List.of_mem_filter hq
        simpa using this
      have hqm : q ∈ ps := List.mem_of_mem_filter hq
      rw [← hinv q (List.mem_cons_of_mem _ hqm)]
      simp [List.mem_cons, hqp]

theorem countPath_specVisited (user : String) (cands : List Project)
    (huniq : ∀ a ∈ cands, ∀ b ∈ cands,
      Project.to_fzf_display user a = Project.to_fzf_display user b → a = b) :
    ∀ (hs done : List String) (p : Project), p ∈ cands →
      countPath p.path (specVisited user cands done hs) =
        if Project.to_fzf_display user p ∈ done then 0
        else if Project.to_fzf_display user p ∈ hs then 1 else 0 := by
  intro hs
  induction hs with
  | nil =>
    intro done p _
    by_cases hd : Project.to_fzf_display user p ∈ done
    · simp [specVisited, countPath, hd]
    · simp [specVisited, countPath, hd]
  | cons h hs ih =>
    intro done p hp
    simp only [specVisited]
    by_cases hdone : h ∈ done
    · rw [if_pos hdone]
      rw [ih done p hp]
      by_cases hpd : Project.to_fzf_display user p ∈ done
      · simp [hpd]
      · have hph : Project.to_fzf_display user p ≠ h := by
          intro hc
          exact hpd (hc ▸ hdone)
        simp [hpd, List.mem_cons, hph]
    · rw [if_neg hdone]
      cases hfo : cands.find?
          (fun q => decide (Project.to_fzf_display user q = h)) with
      | none =>
        dsimp only
        have hph : Project.to_fzf_display user p ≠ h := by
          intro hc
          have := List.find?_eq_none.mp hfo p hp
          simp [hc] at this
        rw [ih done p hp]
        by_cases hpd : Project.to_fzf_display user p ∈ done
        · simp [hpd]
        · simp [hpd, List.mem_cons, hph]
      | some q =>
        dsimp only
        have hq : Project.to_fzf_display user q = h := by
          have := List.find?_some hfo
          simpa using this
        have hqmem : q ∈ cands := List.mem_of_find?_eq_some hfo
        simp only [countPath]
        rw [ih (h :: done) p hp]
        by_cases hqp : q.path = p.path
        · have hq_eq : q = p := (Project.eq_iff_path q p).mpr hqp
          subst hq_eq
          rw [if_pos rfl]
          have hpd : Project.to_fzf_display user q ∉ done := hq ▸ hdone
          rw [if_neg hpd]
          rw [if_pos (by simp [hq])]
          simp [hq]
        · rw [if_neg hqp]
          have hph : Project.to_fzf_display user p ≠ h := by
            intro hc
            exact hqp ((Project.eq_iff_path q p).mp
              (huniq q hqmem p hp (hq.trans hc.symm)) )
          by_cases hpd : Project.to_fzf_display user p ∈ done
          · simp [hpd, List.mem_cons, hph]
          · simp [hpd, List.mem_cons, hph]

theorem countPath_filter_keep (s : String) (f : Project → Bool) :
    ∀ l : List Project, (∀ q ∈ l, q.path = s → f q = true) →
      countPath s (l.filter f) = countPath s l := by
  intro l
  induction l with
  | nil => intro _; rfl
  | cons p ps ih =>
    intro hkeep
    by_cases hf : f p = true
    · rw [List.filter_cons_of_pos hf]
      simp only [countPath]
      rw [ih (fun q hq hqs => hkeep q (List.mem_cons_of_mem _ hq) hqs)]
    · rw [List.filter_cons_of_neg (by simpa using hf)]
      have hps : p.path ≠ s := by
        intro hc
        exact hf (hkeep p (by simp) hc)
      rw [ih (fun q hq hqs => hkeep q (List.mem_cons_of_mem _ hq) hqs)]
      simp only [countPath]
      rw [if_neg hps]
      omega

/-- C2 amended: provided no two candidates carry the same display label,
reorder_projects_by_history returns each candidate exactly once by path
identity, the candidates whose display label occurs in the history first in
history order, and all remaining candidates after them in their original
relative order. -/
theorem c2_reorder_history_spec (user : String) (history : List String)
    (projects : List Project)
    (hinj : ∀ p ∈ projects, ∀ q ∈ projects,
      Project.to_fzf_display user p = Project.to_fzf_display user q → p = q) :
    reorder_projects_by_history user history projects =
      specReorder user history projects ∧
    ∀ p ∈ projects,
      countPath p.path (reorder_projects_by_history user history projects) = 1 := by
  have hmain : reorder_projects_by_history user history projects =
      specReorder user history projects := by
    unfold reorder_projects_by_history specReorder
    show (histPick user projects [] history).1 ++
        dedupPath (histPick user projects [] history).2 projects = _
    have h1 : (histPick user projects [] history).1 =
        specVisited user (firstOccSpec projects) [] history := by
      apply histPick_fst user projects hinj
      intro p _
      simp
    have h2 : dedupPath (histPick user projects [] history).2 projects =
        (firstOccSpec projects).filter
          (fun p => decide (Project.to_fzf_display user p ∉ history)) := by
      apply dedupPath_eq_spec_rest
      intro p hp
      rw [histPick_snd_mem user projects hinj history [] p.path]
      constructor
      · rintro (hc | ⟨q, hqm, hqs, hqh⟩)
        · cases hc
        · have : q = p := (Project.eq_iff_path q p).mpr hqs
          exact this ▸ hqh
      · intro hh
        exact Or.inr ⟨p, hp, rfl, hh⟩
    rw [h1, h2]
  refine ⟨hmain, ?_⟩
  intro p hp
  rw [hmain]
  unfold specReorder
  rw [countPath_append]
  have hpc : p ∈ firstOccSpec projects := (mem_firstOccSpec _ p).mpr hp
  have huniqc : ∀ a ∈ firstOccSpec projects, ∀ b ∈ firstOccSpec projects,
      Project.to_fzf_display user a = Project.to_fzf_display user b → a = b := by
    intro a ha b hb
    exact hinj a ((mem_firstOccSpec _ a).mp ha) b ((mem_firstOccSpec _ b).mp hb)
  rw [countPath_specVisited user (firstOccSpec projects) huniqc history [] p hpc]
  by_cases hh : Project.to_fzf_display user p ∈ history
  · rw [if_neg (by simp), if_pos hh]
    have hzero : countPath p.path ((firstOccSpec projects).filter
        (fun q => decide (Project.to_fzf_display user q ∉ history))) = 0 := by
      apply countPath_eq_zero
      intro q hq
      have hqk := List.of_mem_filter hq
      simp only [decide_eq_true_eq] at hqk
      intro hc
      have : q = p := (Project.eq_iff_path q p).mpr hc
      exact hqk (this ▸ hh)
    rw [hzero]
  · rw [if_neg (by simp), if_neg hh]
    rw [countPath_filter_keep]
    · rw [countPath_firstOccSpec projects p hp]
    · intro q hq hqs
      have : q = p := (Project.eq_iff_path q p).mpr hqs
      subst this
      simpa using hh

/-- C2 counterexample: with history [a] and candidates z, a., .a (the labels
of a. and .a both collapse to a once dots are stripped), the code returns
.a, z, a. — the visited-label candidate a. comes after the unvisited z, so
the claimed ordering fails for colliding labels. -/
theorem c2_counterexample :
    reorder_projects_by_history "u" ["a"]
        [Project.mk "z", Project.mk "a.", Project.mk ".a"] =
      [Project.mk ".a", Project.mk "z", Project.mk "a."] ∧
    ¬ VisitedFirst "u" ["a"]
        (reorder_projects_by_history "u" ["a"]
          [Project.mk "z", Project.mk "a.", Project.mk ".a"]) := by
  constructor
  · decide
  · intro h
    have := h ⟨2, by decide⟩ ⟨1, by decide⟩ (by decide) (by decide)
    exact absurd this (by decide)

theorem c2_witness :
    reorder_projects_by_history "u" ["b", "a"]
        [Project.mk "/a", Project.mk "/b", Project.mk "/c"] =
      specReorder "u" ["b", "a"]
        [Project.mk "/a", Project.mk "/b", Project.mk "/c"] ∧
    countPath "/a" (reorder_projects_by_history "u" ["b", "a"]
        [Project.mk "/a", Project.mk "/b", Project.mk "/c"]) = 1 := by
  have h := c2_reorder_history_spec "u" ["b", "a"]
    [Project.mk "/a", Project.mk "/b", Project.mk "/c"] (by decide)
  exact ⟨h.1, h.2 (Project.mk "/a") (by decide)⟩

/-!  Claim C9. -/

theorem bestSplitGo_eq_none (s : List Char) :
    ∀ k : Nat, bestSplitGo s k = none ↔ ∀ j, j < k → matchAtB s j = false := by
  intro k
  induction k with
  | zero => simp [bestSplitGo]
  | succ k ih =>
    unfold bestSplitGo
    by_cases hm : matchAtB s k
    · rw [if_pos hm]
      constructor
      · intro h
        cases h
      · intro h
        exact absurd hm (by rw [h k (Nat.lt_succ_self k)]; simp)
    · rw [if_neg hm]
      rw [ih]
      constructor
      · intro h j hj
        rcases Nat.lt_succ_iff_lt_or_eq.mp hj with h2 | rfl
        · exact h j h2
        · cases hb : matchAtB s j
          · rfl
          · exact absurd hb hm
      · intro h j hj
        exact h j (Nat.lt_succ_of_lt hj)

theorem bestSplitGo_some_intro (s : List Char) (i : Nat) :
    ∀ k : Nat, matchAtB s i = true → i < k →
      (∀ j, i < j → j < k → matchAtB s j = false) → bestSplitGo s k = some i := by
  intro k
  induction k with
  | zero =>
    intro _ h _
    omega
  | succ k ih =>
    intro hm hik hup
    unfold bestSplitGo
    by_cases hcase : i = k
    · subst hcase
      rw [if_pos hm]
    · have hik2 : i < k := by omega
      have hk : matchAtB s k = false := hup k (by omega) (Nat.lt_succ_self k)
      rw [if_neg (by simp [hk])]
      exact ih hm hik2 (fun j h1 h2 => hup j h1 (Nat.lt_succ_of_lt h2))

theorem matchAtB_of_decomp (s a : List Char) (d : Char) (rest : List Char)
    (heq : s = a ++ depthPat.data ++ d :: rest) (hd : d.isDigit = true) :
    matchAtB s a.length = true := by
  have hdrop : s.drop a.length = depthPat.data ++ d :: rest := by
    rw [heq, List.append_assoc]
    exact List.drop_left _ _
  have hdrop2 : s.drop (a.length + depthPat.data.length) = d :: rest := by
    rw [heq, List.append_assoc]
    have : a.length + depthPat.data.length = (a ++ depthPat.data).length := by simp
    rw [this, ← List.append_assoc]
    exact List.drop_left _ _
  unfold matchAtB
  rw [hdrop, hdrop2]
  simp only [Bool.and_eq_true]
  constructor
  · exact List.isPrefixOf_iff_prefix.mpr ⟨d :: rest, rfl⟩
  · exact hd

theorem decomp_of_matchAtB (s : List Char) (i : Nat)
    (h : matchAtB s i = true) :
    ∃ (d : Char) (rest : List Char),
      s = s.take i ++ depthPat.data ++ d :: rest ∧ d.isDigit = true ∧
      s.drop (i + depthPat.data.length) = d :: rest := by
  unfold matchAtB at h
  simp only [Bool.and_eq_true] at h
  rcases h with ⟨hpre, hdig⟩
  rcases List.isPrefixOf_iff_prefix.mp hpre with ⟨t, ht⟩
  have hdrop2 : s.drop (i + depthPat.data.length) = t := by
    have h1 : s.drop (i + depthPat.data.length) = (s.drop i).drop depthPat.data.length := by
      rw [List.drop_drop]
    rw [h1, ← ht]
    exact List.drop_left _ _
  cases hc : t with
  | nil =>
    rw [hdrop2, hc] at hdig
    cases hdig
  | cons d rest =>
    refine ⟨d, rest, ?_, ?_, ?_⟩
    · conv =>
        lhs
        rw [← List.take_append_drop i s]
      rw [← ht, hc, List.append_assoc]
    · rw [hdrop2, hc] at hdig
      exact hdig
    · rw [hdrop2, hc]

/-- C9 amended: a line is treated as a plain path iff it contains no
occurrence of the separator followed immediately by a digit; the digit run
need not end the line.  When such an occurrence exists, the line is parsed
as a depth entry at the last such occurrence: dir is the longest prefix
followed by the separator and a digit, the depth is the maximal digit run
right after the separator, and any trailing text after the digits is
ignored. -/
theorem isNd_of_isDigit (c : Char) (h : c.isDigit = true) : isNd c = true := by
  unfold isNd
  rw [h]
  rfl

theorem matchAtNd_of_matchAtB (s : List Char) (i : Nat)
    (h : matchAtB s i = true) : matchAtNd s i = true := by
  unfold matchAtB at h
  unfold matchAtNd
  simp only [Bool.and_eq_true] at h ⊢
  rcases h with ⟨h1, h2⟩
  refine ⟨h1, ?_⟩
  cases hc : s.drop (i + depthPat.data.length) with
  | nil =>
    rw [hc] at h2
    exact Bool.noConfusion h2
  | cons c t =>
    rw [hc] at h2
    exact isNd_of_isDigit c h2

theorem bestSplitNdGo_eq_none (s : List Char) :
    ∀ k : Nat, bestSplitNdGo s k = none ↔ ∀ j, j < k → matchAtNd s j = false := by
  intro k
  induction k with
  | zero => simp [bestSplitNdGo]
  | succ k ih =>
    unfold bestSplitNdGo
    by_cases hm : matchAtNd s k
    · rw [if_pos hm]
      constructor
      · intro h
        cases h
      · intro h
        exact absurd hm (by rw [h k (Nat.lt_succ_self k)]; simp)
    · rw [if_neg hm]
      rw [ih]
      constructor
      · intro h j hj
        rcases Nat.lt_succ_iff_lt_or_eq.mp hj with h2 | rfl
        · exact h j h2
        · cases hb : matchAtNd s j
          · rfl
          · exact absurd hb hm
      · intro h j hj
        exact h j (Nat.lt_succ_of_lt hj)

theorem bestSplitNdGo_some_intro (s : List Char) (i : Nat) :
    ∀ k : Nat, matchAtNd s i = true → i < k →
      (∀ j, i < j → j < k → matchAtNd s j = false) → bestSplitNdGo s k = some i := by
  intro k
  induction k with
  | zero =>
    intro _ h _
    omega
  | succ k ih =>
    intro hm hik hup
    unfold bestSplitNdGo
    by_cases hcase : i = k
    · subst hcase
      rw [if_pos hm]
    · have hik2 : i < k := by omega
      have hk : matchAtNd s k = false := hup k (by omega) (Nat.lt_succ_self k)
      rw [if_neg (by simp [hk])]
      exact ih hm hik2 (fun j h1 h2 => hup j h1 (Nat.lt_succ_of_lt h2))

theorem bestSplitNdGo_some_elim (s : List Char) :
    ∀ (k i : Nat), bestSplitNdGo s k = some i →
      matchAtNd s i = true ∧ i < k ∧
        ∀ j, i < j → j < k → matchAtNd s j = false := by
  intro k
  induction k with
  | zero =>
    intro i h
    cases h
  | succ k ih =>
    intro i h
    unfold bestSplitNdGo at h
    by_cases hm : matchAtNd s k
    · rw [if_pos hm] at h
      cases h
      refine ⟨hm, Nat.lt_succ_self k, ?_⟩
      intro j h1 h2
      omega
    · rw [if_neg hm] at h
      rcases ih i h with ⟨h1, h2, h3⟩
      refine ⟨h1, Nat.lt_succ_of_lt h2, ?_⟩
      intro j hj1 hj2
      rcases Nat.lt_succ_iff_lt_or_eq.mp hj2 with hj3 | rfl
      · exact h3 j hj1 hj3
      · cases hb : matchAtNd s j
        · rfl
        · exact absurd hb hm

theorem matchAtNd_of_decomp (s a : List Char) (d : Char) (rest : List Char)
    (heq : s = a ++ depthPat.data ++ d :: rest) (hd : isNd d = true) :
    matchAtNd s a.length = true := by
  have hdrop : s.drop a.length = depthPat.data ++ d :: rest := by
    rw [heq, List.append_assoc]
    exact List.drop_left _ _
  have hdrop2 : s.drop (a.length + depthPat.data.length) = d :: rest := by
    rw [heq, List.append_assoc]
    have h2 : a.length + depthPat.data.length = (a ++ depthPat.data).length := by simp
    rw [h2, ← List.append_assoc]
    exact List.drop_left _ _
  unfold matchAtNd
  rw [hdrop, hdrop2]
  simp only [Bool.and_eq_true]
  constructor
  · exact List.isPrefixOf_iff_prefix.mpr ⟨d :: rest, rfl⟩
  · exact hd

theorem decomp_of_matchAtNd (s : List Char) (i : Nat)
    (h : matchAtNd s i = true) :
    ∃ (d : Char) (rest : List Char),
      s = s.take i ++ depthPat.data ++ d :: rest ∧ isNd d = true ∧
      s.drop (i + depthPat.data.length) = d :: rest := by
  unfold matchAtNd at h
  simp only [Bool.and_eq_true] at h
  rcases h with ⟨hpre, hdig⟩
  rcases List.isPrefixOf_iff_prefix.mp hpre with ⟨t, ht⟩
  have hdrop2 : s.drop (i + depthPat.data.length) = t := by
    have h1 : s.drop (i + depthPat.data.length) = (s.drop i).drop depthPat.data.length := by
      rw [List.drop_drop]
    rw [h1, ← ht]
    exact List.drop_left _ _
  cases hc : t with
  | nil =>
    rw [hdrop2, hc] at hdig
    exact Bool.noConfusion hdig
  | cons d rest =>
    refine ⟨d, rest, ?_, ?_, ?_⟩
    · conv =>
        lhs
        rw [← List.take_append_drop i s]
      rw [← ht, hc, List.append_assoc]
    · rw [hdrop2, hc] at hdig
      exact hdig
    · rw [hdrop2, hc]

theorem takeWhile_eq_of_imp (p q : Char → Bool)
    (himp : ∀ c : Char, p c = true → q c = true) :
    ∀ l : List Char, (l.takeWhile q).all p = true → l.takeWhile p = l.takeWhile q := by
  intro l
  induction l with
  | nil => intro _; rfl
  | cons c t ih =>
    intro hall
    cases hq : q c
    · have hp : p c = false := by
        cases hb : p c
        · rfl
        · exact absurd (himp c hb) (by simp [hq])
      rw [List.takeWhile_cons_of_neg (by simp [hp]),
        List.takeWhile_cons_of_neg (by simp [hq])]
    · rw [List.takeWhile_cons_of_pos hq] at hall
      simp only [List.all_cons, Bool.and_eq_true] at hall
      rw [List.takeWhile_cons_of_pos hq, List.takeWhile_cons_of_pos hall.1]
      rw [ih hall.2]

theorem bestSplitNd_of_decomp (line : String) (a : List Char) (d : Char)
    (rest : List Char)
    (heq : line.data = a ++ depthPat.data ++ d :: rest) (hd : isNd d = true)
    (hmax : ∀ (a2 : List Char) (d2 : Char) (rest2 : List Char),
      line.data = a2 ++ depthPat.data ++ d2 :: rest2 → isNd d2 = true →
      a2.length ≤ a.length) :
    bestSplitNd line.data = some a.length := by
  have hm : matchAtNd line.data a.length = true :=
    matchAtNd_of_decomp line.data a d rest heq hd
  have halen : a.length ≤ line.data.length := by
    have := congrArg List.length heq
    simp only [List.length_append, List.length_cons] at this
    omega
  have hup : ∀ j, a.length < j → j < line.data.length + 1 →
      matchAtNd line.data j = false := by
    intro j hij hjlt
    cases hb : matchAtNd line.data j
    · rfl
    · rcases decomp_of_matchAtNd line.data j hb with ⟨d2, rest2, hdec, hdig2, _⟩
      have hle := hmax _ _ _ hdec hdig2
      rw [List.length_take] at hle
      omega
  exact bestSplitNdGo_some_intro line.data a.length (line.data.length + 1) hm
    (by omega) hup

/-- The total ASCII pipeline agrees with the exact checked model whenever the
program completes on the line: if expandLineChecked does not panic, the
expandLine used by get_projects returns the same projects. -/
theorem expandLineChecked_sound (walk : String → Nat → List String)
    (line : String) (ps : List Project)
    (hps : expandLineChecked walk line = some ps) :
    expandLine walk line = ps := by
  cases hbs : bestSplitNd line.data with
  | none =>
    unfold expandLineChecked at hps
    rw [hbs] at hps
    dsimp only at hps
    cases hps
    have hnone : bestSplitGo line.data (line.data.length + 1) = none := by
      rw [bestSplitGo_eq_none]
      intro j hj
      cases hb : matchAtB line.data j
      · rfl
      · exfalso
        have hnd := matchAtNd_of_matchAtB line.data j hb
        have hfalse := (bestSplitNdGo_eq_none line.data (line.data.length + 1)).mp hbs j hj
        rw [hfalse] at hnd
        exact Bool.noConfusion hnd
    unfold expandLine depthCapture bestSplit
    rw [hnone]
  | some i =>
    unfold expandLineChecked at hps
    rw [hbs] at hps
    dsimp only at hps
    rcases bestSplitNdGo_some_elim line.data (line.data.length + 1) i hbs with
      ⟨hm, hik, hup⟩
    rcases decomp_of_matchAtNd line.data i hm with ⟨d, rest, hdec, hdig, hdr⟩
    rw [hdr] at hps
    by_cases hok : ((d :: rest).takeWhile isNd).all Char.isDigit = true ∧
        digitsToNat ((d :: rest).takeWhile isNd) ≤ u32Max
    · rw [if_pos hok] at hps
      cases hps
      have hdd : d.isDigit = true := by
        have h1 : (d :: rest).takeWhile isNd = d :: rest.takeWhile isNd := by
          rw [List.takeWhile_cons_of_pos hdig]
        have h2 := hok.1
        rw [h1] at h2
        simp only [List.all_cons, Bool.and_eq_true] at h2
        exact h2.1
      have hmB : matchAtB line.data i = true := by
        unfold matchAtB
        unfold matchAtNd at hm
        simp only [Bool.and_eq_true] at hm ⊢
        refine ⟨hm.1, ?_⟩
        rw [hdr]
        exact hdd
      have hupB : ∀ j, i < j → j < line.data.length + 1 →
          matchAtB line.data j = false := by
        intro j h1 h2
        cases hb : matchAtB line.data j
        · rfl
        · have hfalse := hup j h1 h2
          have hnd := matchAtNd_of_matchAtB line.data j hb
          rw [hfalse] at hnd
          exact Bool.noConfusion hnd
      have hsomeB : bestSplitGo line.data (line.data.length + 1) = some i :=
        bestSplitGo_some_intro line.data i (line.data.length + 1) hmB hik hupB
      have htw : (d :: rest).takeWhile Char.isDigit = (d :: rest).takeWhile isNd :=
        takeWhile_eq_of_imp Char.isDigit isNd isNd_of_isDigit (d :: rest) hok.1
      have hcap : depthCapture line =
          some (String.mk (line.data.take i),
            digitsToNat ((d :: rest).takeWhile isNd)) := by
        unfold depthCapture bestSplit
        rw [hsomeB]
        dsimp only
        rw [hdr, htw]
      unfold expandLine
      rw [hcap]
    · rw [if_neg hok] at hps
      cases hps

/-- C9 amended: a line is treated as a plain path iff it contains no
occurrence of the separator followed immediately by a regex digit (the
Unicode class Nd, not only ASCII, and the digit run need not end the line).
When such an occurrence exists, the regex matches at the last one, the
captured depth text is the maximal Nd run after the separator, and the code
parses it as a u32: the parse panics - the invocation aborts and nothing is
emitted - unless the run is pure ASCII digits with value at most 4294967295,
in which case aggregation emits dir (the prefix before the separator) plus
the walker output, ignoring any text after the digit run.  The third
conjunct is the bridge: whenever the checked model completes, the total
expandLine used by get_projects returns exactly the same projects. -/
theorem c9_depth_line_parse (walk : String → Nat → List String) (line : String) :
    (¬ HasDepthMatchNd line →
      expandLineChecked walk line = some [Project.mk line]) ∧
    (∀ (a : List Char) (d : Char) (rest : List Char),
      line.data = a ++ depthPat.data ++ d :: rest → isNd d = true →
      (∀ (a2 : List Char) (d2 : Char) (rest2 : List Char),
        line.data = a2 ++ depthPat.data ++ d2 :: rest2 → isNd d2 = true →
        a2.length ≤ a.length) →
      ((((d :: rest).takeWhile isNd).all Char.isDigit = true ∧
          digitsToNat ((d :: rest).takeWhile isNd) ≤ u32Max) →
        expandLineChecked walk line =
          some (Project.mk (String.mk a) ::
            (walk (String.mk a)
              (digitsToNat ((d :: rest).takeWhile isNd))).map Project.mk)) ∧
      (¬ (((d :: rest).takeWhile isNd).all Char.isDigit = true ∧
          digitsToNat ((d :: rest).takeWhile isNd) ≤ u32Max) →
        expandLineChecked walk line = none)) ∧
    (∀ ps : List Project, expandLineChecked walk line = some ps →
      expandLine walk line = ps) := by
  refine ⟨?_, ?_, ?_⟩
  · intro hno
    have hnone : bestSplitNdGo line.data (line.data.length + 1) = none := by
      rw [bestSplitNdGo_eq_none]
      intro j hj
      cases hb : matchAtNd line.data j
      · rfl
      · rcases decomp_of_matchAtNd line.data j hb with ⟨d2, rest2, hdec, hdig2, _⟩
        exact absurd ⟨line.data.take j, d2, rest2, hdec, hdig2⟩ hno
    unfold expandLineChecked bestSplitNd
    rw [hnone]
  · intro a d rest heq hd hmax
    have hsome : bestSplitNd line.data = some a.length :=
      bestSplitNd_of_decomp line a d rest heq hd hmax
    have hta : line.data.take a.length = a := by
      rw [heq, List.append_assoc]
      exact List.take_left _ _
    have hdr : line.data.drop (a.length + depthPat.data.length) = d :: rest := by
      rw [heq, List.append_assoc]
      have h2 : a.length + depthPat.data.length = (a ++ depthPat.data).length := by simp
      rw [h2, ← List.append_assoc]
      exact List.drop_left _ _
    constructor
    · intro hok
      unfold expandLineChecked
      rw [hsome]
      dsimp only
      rw [hta, hdr]
      rw [if_pos hok]
    · intro hbad
      unfold expandLineChecked
      rw [hsome]
      dsimp only
      rw [hdr]
      rw [if_neg hbad]
  · intro ps hps
    exact expandLineChecked_sound walk line ps hps

/-- C9 counterexample: the line p --depth 3x has no well-formed depth suffix
(the digit run does not end the line), yet the unanchored regex still
matches it, so the aggregation emits dir p and runs the walker instead of
treating the whole raw line as a plain path; the parse of the run 3 succeeds,
so the exact checked model completes with the same output. -/
theorem c9_counterexample :
    ¬ WellFormedDepthLine "p --depth 3x" ∧
    expandLineChecked (fun _ _ => ["/w"]) "p --depth 3x" =
      some [Project.mk "p", Project.mk "/w"] ∧
    expandLine (fun _ _ => ["/w"]) "p --depth 3x" =
      [Project.mk "p", Project.mk "/w"] ∧
    expandLine (fun _ _ => ["/w"]) "p --depth 3x" ≠
      [Project.mk "p --depth 3x"] := by
  refine ⟨?_, by decide, by decide, by decide⟩
  rintro ⟨dir, ds, hne, hdig, heq⟩
  have hlast : ("p --depth 3x".data).getLast? = ds.getLast? := by
    rw [heq]
    exact List.getLast?_append_of_ne_nil _ hne
  have hx : ds.getLast? = some 'x' := by
    rw [← hlast]
    decide
  have hmem : 'x' ∈ ds := by
    rcases List.mem_getLast?_eq_getLast (Option.mem_def.mpr hx) with ⟨hne2, hEq⟩
    rw [hEq]
    exact List.getLast_mem hne2
  have := hdig 'x' hmem
  simp at this

theorem c9_witness :
    expandLineChecked (fun _ _ => ["/w"]) "p --depth 3x" =
      some (Project.mk (String.mk ['p']) ::
        ((fun (_ : String) (_ : Nat) => ["/w"]) (String.mk ['p'])
          (digitsToNat (('3' :: ['x']).takeWhile isNd))).map Project.mk) ∧
    expandLineChecked (fun _ _ => ["/w"]) "p --depth 4294967296" = none ∧
    expandLineChecked (fun _ _ => ["/w"])
      (String.mk ("p --depth ".data ++ [Char.ofNat 0x663])) = none ∧
    expandLine (fun _ _ => ["/w"]) "p --depth 3x" =
      [Project.mk "p", Project.mk "/w"] := by
  refine ⟨?_, ?_, ?_, ?_⟩
  · refine ((c9_depth_line_parse (fun _ _ => ["/w"]) "p --depth 3x").2.1
      ['p'] '3' ['x'] (by decide) (by decide) ?_).1 (by decide)
    intro a2 d2 rest2 h2 hd2
    have hm := matchAtNd_of_decomp ("p --depth 3x".data) a2 d2 rest2 h2 hd2
    have hl : a2.length < 13 := by
      have := congrArg List.length h2
      simp only [List.length_append, List.length_cons, List.length_nil] at this
      have h9 : depthPat.data.length = 9 := by decide
      omega
    have hb : ∀ j, j < 13 → matchAtNd ("p --depth 3x".data) j = true → j ≤ 1 := by
      decide
    exact hb a2.length hl hm
  · refine ((c9_depth_line_parse (fun _ _ => ["/w"]) "p --depth 4294967296").2.1
      ['p'] '4' ("294967296".data) (by decide) (by decide) ?_).2 (by decide)
    intro a2 d2 rest2 h2 hd2
    have hm := matchAtNd_of_decomp ("p --depth 4294967296".data) a2 d2 rest2 h2 hd2
    have hl : a2.length < 21 := by
      have := congrArg List.length h2
      simp only [List.length_append, List.length_cons, List.length_nil] at this
      have h9 : depthPat.data.length = 9 := by decide
      omega
    have hb : ∀ j, j < 21 →
        matchAtNd ("p --depth 4294967296".data) j = true → j ≤ 1 := by
      decide
    exact hb a2.length hl hm
  · refine ((c9_depth_line_parse (fun _ _ => ["/w"])
      (String.mk ("p --depth ".data ++ [Char.ofNat 0x663]))).2.1
      ['p'] (Char.ofNat 0x663) [] (by decide) (by decide) ?_).2 (by decide)
    intro a2 d2 rest2 h2 hd2
    have hm := matchAtNd_of_decomp
      ((String.mk ("p --depth ".data ++ [Char.ofNat 0x663])).data) a2 d2 rest2 h2 hd2
    have hl : a2.length < 12 := by
      have := congrArg List.length h2
      simp only [List.length_append, List.length_cons, List.length_nil] at this
      have h9 : depthPat.data.length = 9 := by decide
      omega
    have hb : ∀ j, j < 12 →
        matchAtNd ((String.mk ("p --depth ".data ++ [Char.ofNat 0x663])).data) j =
          true → j ≤ 1 := by
      decide
    exact hb a2.length hl hm
  · exact (c9_depth_line_parse (fun _ _ => ["/w"]) "p --depth 3x").2.2
      [Project.mk "p", Project.mk "/w"] (by decide)

/-!  Claim C8. -/

theorem occurs_nil_false (pat : List Char) (hpat : pat ≠ []) : ¬ Occurs pat [] := by
  rintro ⟨a, b, hab⟩
  have := congrArg List.length hab
  simp only [List.length_nil, List.length_append] at this
  have hp1 : 1 ≤ pat.length := by
    cases pat with
    | nil => exact absurd rfl hpat
    | cons x xs => simp
  omega

theorem replaced_of_nil (pat rep : List Char) (hpat : pat ≠ []) :
    Replaced pat rep [] [] := by
  refine ⟨[[]], by simp, by rw [interc], by rw [interc], ?_, ?_⟩
  · intro l hl
    rw [List.getLast?_singleton] at hl
    cases hl
    exact occurs_nil_false pat hpat
  · intro q hq
    simp [List.dropLast] at hq

theorem replaceAllL_replaced_aux (pat rep : List Char) (hpat : pat ≠ []) :
    ∀ (n : Nat) (s : List Char), s.length ≤ n →
      Replaced pat rep s (replaceAllL pat rep s) := by
  intro n
  induction n with
  | zero =>
    intro s hs
    have hs0 : s = [] := List.eq_nil_of_length_eq_zero (Nat.le_zero.mp hs)
    subst hs0
    rw [replaceAllL_nil]
    exact replaced_of_nil pat rep hpat
  | succ n ih =>
    intro s hs
    cases s with
    | nil =>
      rw [replaceAllL_nil]
      exact replaced_of_nil pat rep hpat
    | cons c rest =>
      have hp1 : 1 ≤ pat.length := by
        cases pat with
        | nil => exact absurd rfl hpat
        | cons x xs => simp
      by_cases hpre : pat.isPrefixOf (c :: rest)
      · rcases List.isPrefixOf_iff_prefix.mp hpre with ⟨t1, ht1⟩
        have hdrop : List.drop pat.length (c :: rest) = t1 := by
          rw [← ht1]
          exact List.drop_left _ _
        have ht1len : t1.length ≤ n := by
          have := congrArg List.length ht1
          simp only [List.length_append, List.length_cons] at this
          simp only [List.length_cons] at hs
          omega
        rw [replaceAllL_pos pat rep c rest hpat hpre, hdrop]
        rcases ih t1 ht1len with ⟨parts, hne, hsrc, htgt, hlast, hcond⟩
        cases parts with
        | nil => exact absurd rfl hne
        | cons p0 prest =>
          refine ⟨[] :: p0 :: prest, by simp, ?_, ?_, ?_, ?_⟩
          · rw [interc]
            simp only [List.nil_append]
            rw [← hsrc]
            exact ht1.symm
          · rw [interc]
            simp only [List.nil_append]
            rw [← htgt]
          · intro l hl
            rw [List.getLast?_cons_cons] at hl
            exact hlast l hl
          · intro q hq a b hab
            rw [List.dropLast_cons₂] at hq
            rcases List.mem_cons.mp hq with rfl | hq2
            · simp
            · exact hcond q hq2 a b hab
      · rw [replaceAllL_neg pat rep c rest hpre]
        have hrest : rest.length ≤ n := by
          simp only [List.length_cons] at hs
          omega
        rcases ih rest hrest with ⟨parts, hne, hsrc, htgt, hlast, hcond⟩
        have hprefix_false : ∀ b2 : List Char, pat ++ b2 ≠ c :: rest := by
          intro b2 hb2
          exact hpre (List.isPrefixOf_iff_prefix.mpr ⟨b2, hb2⟩)
        cases parts with
        | nil => exact absurd rfl hne
        | cons p0 prest =>
          refine ⟨(c :: p0) :: prest, by simp, ?_, ?_, ?_, ?_⟩
          · cases prest with
            | nil =>
              rw [interc]
              rw [interc] at hsrc
              rw [hsrc]
            | cons p1 pr2 =>
              rw [interc]
              rw [interc] at hsrc
              rw [hsrc]
              simp [List.cons_append, List.append_assoc]
          · cases prest with
            | nil =>
              rw [interc]
              rw [interc] at htgt
              rw [htgt]
            | cons p1 pr2 =>
              rw [interc]
              rw [interc] at htgt
              rw [htgt]
              simp [List.cons_append, List.append_assoc]
          · cases prest with
            | nil =>
              intro l hl
              rw [List.getLast?_singleton] at hl
              cases hl
              rintro ⟨a, b, hab⟩
              cases a with
              | nil =>
                simp only [List.nil_append] at hab
                rw [interc] at hsrc
                exact hprefix_false b (by rw [← hab, ← hsrc])
              | cons a0 a2 =>
                have hinj : p0 = a2 ++ pat ++ b := by
                  have h2 := hab
                  simp only [List.cons_append, List.append_assoc] at h2
                  injection h2 with hh1 hh2
                  rw [hh2, List.append_assoc]
                exact hlast p0 (by rw [List.getLast?_singleton]) ⟨a2, b, hinj⟩
            | cons p1 pr2 =>
              intro l hl
              rw [List.getLast?_cons_cons] at hl
              exact hlast l hl
          · cases prest with
            | nil =>
              intro q hq
              simp [List.dropLast] at hq
            | cons p1 pr2 =>
              intro q hq a b hab
              rw [List.dropLast_cons₂] at hq
              rcases List.mem_cons.mp hq with rfl | hq2
              · cases a with
                | nil =>
                  exfalso
                  simp only [List.nil_append] at hab
                  have hsrc2 : c :: rest =
                      ((c :: p0) ++ pat) ++ interc pat (p1 :: pr2) := by
                    rw [hsrc]
                    rw [interc]
                    simp [List.cons_append, List.append_assoc]
                  apply hprefix_false (b ++ interc pat (p1 :: pr2))
                  rw [← List.append_assoc, ← hab]
                  exact hsrc2.symm
                | cons a0 a2 =>
                  have hinj : p0 ++ pat = a2 ++ pat ++ b := by
                    have h2 := hab
                    simp only [List.cons_append, List.append_assoc] at h2
                    injection h2 with hh1 hh2
                    rw [hh2, List.append_assoc]
                  have := hcond p0 (by rw [List.dropLast_cons₂]; exact List.mem_cons_self _ _)
                    a2 b hinj
                  simp only [List.length_cons]
                  omega
              · exact hcond q
                  (by rw [List.dropLast_cons₂]; exact List.mem_cons_of_mem _ hq2) a b hab

theorem replaceAllL_replaced (pat rep : List Char) (hpat : pat ≠ [])
    (s : List Char) : Replaced pat rep s (replaceAllL pat rep s) :=
  replaceAllL_replaced_aux pat rep hpat s.length s (Nat.le_refl _)

theorem replaceAllL_dot_filter :
    ∀ s : List Char, replaceAllL ['.'] [] s = s.filter (fun c => decide (c ≠ '.')) := by
  intro s
  induction s with
  | nil => rfl
  | cons c rest ih =>
    by_cases hc : c = '.'
    · subst hc
      have hpre : (['.']).isPrefixOf ('.' :: rest) = true := by
        simp [List.isPrefixOf]
      rw [replaceAllL_pos ['.'] [] '.' rest (by simp) hpre]
      simp only [List.nil_append]
      have hdrop : List.drop ((['.'] : List Char).length) ('.' :: rest) = rest := rfl
      rw [hdrop, ih]
      rw [List.filter_cons_of_neg (by simp)]
    · have hbeq : ('.' == c) = false := by
        rw [beq_eq_false_iff_ne]
        exact fun h => hc h.symm
      have hpre : ¬ ((['.']).isPrefixOf (c :: rest) = true) := by
        simp [List.isPrefixOf, hbeq]
      rw [replaceAllL_neg ['.'] [] c rest hpre]
      rw [ih]
      rw [List.filter_cons_of_pos (by simpa using hc)]

/-- C8 amended: the display label is the path with every occurrence of the
home-directory prefix replaced by a tilde, then every occurrence of the
alternate root replaced by the alias, then every literal dot removed;
replacements are not limited to a leading occurrence. -/
theorem c8_display_replaces_everywhere (user : String) (p : Project) :
    ∃ s1 s2 : List Char,
      Replaced (homePat user).data ['~'] p.path.data s1 ∧
      Replaced codeRoot.data "code".data s1 s2 ∧
      (Project.to_fzf_display user p).data = s2.filter (fun c => decide (c ≠ '.')) := by
  have hhome : (homePat user).data ≠ [] := by
    unfold homePat
    rw [String.data_append]
    simp
  have hcode : codeRoot.data ≠ [] := by decide
  refine ⟨replaceAllL (homePat user).data ['~'] p.path.data,
    replaceAllL codeRoot.data "code".data
      (replaceAllL (homePat user).data ['~'] p.path.data),
    replaceAllL_replaced _ _ hhome _,
    replaceAllL_replaced _ _ hcode _, ?_⟩
  exact replaceAllL_dot_filter _

/-- C8 counterexample: for the path /a/home/u/b of user u, the claim as
stated predicts the label /a/home/u/b (the home prefix occurs only in the
middle, and only a leading occurrence should be rewritten), but the code
rewrites the interior occurrence too and produces /a~/b. -/
theorem c8_counterexample :
    Project.to_fzf_display "u" (Project.mk "/a/home/u/b") = "/a~/b" ∧
    displayLeadingSpec "u" "/a/home/u/b" = "/a/home/u/b" ∧
    Project.to_fzf_display "u" (Project.mk "/a/home/u/b") ≠
      displayLeadingSpec "u" "/a/home/u/b" := by
  decide
